import Mathlib

/-!
# Verification of the elopage-dl asset-discovery and download pipeline

Shallow embedding of the core of `src/main.rs` (and the data model of
`src/json.rs`): the path sanitizer `safe_path`, the module tree resolver
`resolve_module_tree`, the module tree normalizer `normalize_module_tree`,
the content-block asset discovery, and the external-process download
supervisor `child_read_to_end` / `download_embed`.

Machine integers (`usize`) are modelled as `Nat`; strings as Lean `String`
(with the character list `String.data` used for the sanitizer, which in the
source operates on `str`); fallible operations return `Except`/`Option`.
-/

/-! ## Data model (src/json.rs) -/

/-- One row of the flat lessons list (`LessonsListItem` in `src/json.rs`). -/
structure LessonsListItem where
  id : Nat
  name : String
  active : Bool
  content_page_id : Option Nat
  is_category : Bool
  parent_id : Option Nat
  position : Nat
deriving Repr, DecidableEq

/-- A node of the module tree (`ModuleTreeItem` in `src/json.rs`):
a `category` holds its resolved children, a `lesson` has no children field. -/
inductive ModuleTreeItem where
  | category (item : LessonsListItem) (children : List ModuleTreeItem)
  | lesson (item : LessonsListItem)

/-- Hosted video variant (`Asset` in `src/json.rs`): URL and byte size. -/
structure Asset where
  url : String
  file_size : Nat
deriving Repr, DecidableEq

/-- Wistia video metadata (`WistiaData` in `src/json.rs`). -/
structure WistiaData where
  name : Option String
  type : Option String
  assets : Option (List Asset)
deriving Repr, DecidableEq

/-- Attached file (`FileAsset` in `src/json.rs`). -/
structure FileAsset where
  name : Option String
  original : Option String
deriving Repr, DecidableEq

/-- A downloadable good (`DigitalGood` inside `Good` in `src/json.rs`);
the wrapper `Good { digital }` is flattened into this structure. -/
structure DigitalGood where
  wistia_data : Option WistiaData
  file : Option FileAsset
deriving Repr, DecidableEq

/-- A node of a lesson's nested content structure (`ContentBlock` in
`src/json.rs`); `text` is the inline HTML of `content.text`. -/
inductive ContentBlock where
  | mk (children : List ContentBlock) (text : Option String)
      (goods : Option (List DigitalGood))

def ContentBlock.children : ContentBlock → List ContentBlock
  | .mk cs _ _ => cs

def ContentBlock.text : ContentBlock → Option String
  | .mk _ t _ => t

def ContentBlock.goods : ContentBlock → Option (List DigitalGood)
  | .mk _ _ g => g

/-! ## Path sanitizer (src/main.rs, `safe_path`)

`safe_path` is `htmlize::unescape` followed by a chain of `str::replace`
calls and a final `trim`.  `str::replace` rewrites all non-overlapping
occurrences of the pattern left to right; `replace(['?', '"', ':'], "")`
deletes every occurrence of any of the listed characters; `trim` strips
Unicode whitespace from both ends. -/

/-- Rust `char::is_whitespace` (Unicode `White_Space`). -/
def rustIsWhitespace (c : Char) : Bool :=
  c = ' ' ∨ c = '\t' ∨ c = '\n' ∨ c = '\r' ∨ c = '\x0b' ∨ c = '\x0c' ∨
  c.val = 0x85 ∨ c.val = 0xA0 ∨ c.val = 0x1680 ∨
  (0x2000 ≤ c.val ∧ c.val ≤ 0x200A) ∨ c.val = 0x2028 ∨ c.val = 0x2029 ∨
  c.val = 0x202F ∨ c.val = 0x205F ∨ c.val = 0x3000

/-- `replace(": ", " - ")`: Rust `str::replace` with the two-character
pattern `": "`, scanning left to right over non-overlapping occurrences. -/
def replaceColonSpace : List Char → List Char
  | ':' :: ' ' :: rest => ' ' :: '-' :: ' ' :: replaceColonSpace rest
  | c :: rest => c :: replaceColonSpace rest
  | [] => []

/-- `replace(" / ", " - ")`: Rust `str::replace` with the three-character
pattern `" / "`. -/
def replaceSpaceSlashSpace : List Char → List Char
  | ' ' :: '/' :: ' ' :: rest => ' ' :: '-' :: ' ' :: replaceSpaceSlashSpace rest
  | c :: rest => c :: replaceSpaceSlashSpace rest
  | [] => []

/-- `replace('/', " - ")`: every remaining slash becomes `" - "`. -/
def replaceSlash (s : List Char) : List Char :=
  s.flatMap (fun c => if c = '/' then [' ', '-', ' '] else [c])

/-- `replace('*', "-")`. -/
def replaceStar (s : List Char) : List Char :=
  s.map (fun c => if c = '*' then '-' else c)

/-- Rust `str::replace(['?', '"', ':'], "")`: delete every occurrence of
any of the listed characters. -/
def removeChars (cs : List Char) (s : List Char) : List Char :=
  s.filter (fun c => ¬ c ∈ cs)

/-- Rust `str::trim` on character lists. -/
def trimList (s : List Char) : List Char :=
  ((s.dropWhile rustIsWhitespace).reverse.dropWhile rustIsWhitespace).reverse

/-- Model of `htmlize::unescape`: a single left-to-right pass decoding
HTML entities.  The crate resolves the full HTML5 entity table; this model
covers the core named entities, which is sound for every string considered
here (these entities are resolved identically by the crate, and a string
without `&` is left unchanged by both). -/
def unescapeList : List Char → List Char
  | [] => []
  | c :: rest =>
    if c = '&' then
      match rest with
      | 'a' :: 'm' :: 'p' :: ';' :: r => '&' :: unescapeList r
      | 'l' :: 't' :: ';' :: r => '<' :: unescapeList r
      | 'g' :: 't' :: ';' :: r => '>' :: unescapeList r
      | 'q' :: 'u' :: 'o' :: 't' :: ';' :: r => '"' :: unescapeList r
      | 'a' :: 'p' :: 'o' :: 's' :: ';' :: r => '\'' :: unescapeList r
      | other => c :: unescapeList other
    else c :: unescapeList rest

/-- `safe_path` from `src/main.rs`, on character lists: unescape HTML
entities, then `replace(": ", " - ")`, `replace(" / ", " - ")`,
`replace('/', " - ")`, `replace('*', "-")`, `replace(['?', '"', ':'], "")`,
and `trim`. -/
def safePathList (s : List Char) : List Char :=
  trimList
    (removeChars ['?', '"', ':']
      (replaceStar
        (replaceSlash
          (replaceSpaceSlashSpace
            (replaceColonSpace
              (unescapeList s))))))

/-- `safe_path` from `src/main.rs`. -/
def safe_path (s : String) : String :=
  String.mk (safePathList s.data)

/-! ## Module tree resolver (src/main.rs, `resolve_module_tree`)

The source partitions the stack by `parent_id == parent_id`, loops over the
extracted level threading the remaining stack through one recursive call per
item, and finally sorts the level by `position` with the stable `sort_by`.
The recursion is total because every nested call receives a strictly smaller
pool (proved below as `resolveAux_fuel_irrelevant`); the definition uses a
fuel argument, with `resolve_module_tree` supplying `stack.length + 1` fuel,
which is always sufficient. -/

/-- Sort key: the `position` property of a tree item (`sort_by` in the
source compares positions of both variants). -/
def nodePosition : ModuleTreeItem → Nat
  | .category item _ => item.position
  | .lesson item => item.position

/-- Stable insertion into a position-sorted list: an element is placed after
all existing elements of smaller-or-equal position, matching the stable
`Vec::sort_by`. -/
def insertNode (x : ModuleTreeItem) : List ModuleTreeItem → List ModuleTreeItem
  | [] => [x]
  | y :: ys =>
    if nodePosition x < nodePosition y then x :: y :: ys
    else y :: insertNode x ys

/-- Stable sort of a tree level by `position` (`tree_level.sort_by` in the
source; any stable sort by this total key computes the same list). -/
def sortNodes : List ModuleTreeItem → List ModuleTreeItem
  | [] => []
  | x :: xs => insertNode x (sortNodes xs)

/-- The `for item in tree_level_items` loop of `resolve_module_tree`,
parameterized by the recursive resolver `f`: recurse per item with the
item's `id` as new parent, threading the remaining stack; a non-category
item becomes a childless `lesson` node (the recursively collected children
are dropped by the source). -/
def resolveLevel
    (f : Option Nat → List LessonsListItem →
      List ModuleTreeItem × List LessonsListItem) :
    List LessonsListItem → List LessonsListItem →
    List ModuleTreeItem × List LessonsListItem
  | [], pool => ([], pool)
  | item :: items, pool =>
    let (children, remaining) := f (some item.id) pool
    let node :=
      if item.is_category then ModuleTreeItem.category item children
      else ModuleTreeItem.lesson item
    let (nodes, remaining') := resolveLevel f items remaining
    (node :: nodes, remaining')

/-- `resolve_module_tree` body with explicit fuel: partition the stack into
the current level and the rest, then fold over the level.  With fuel `0`
nothing is consumed; `stack.length + 1` fuel always suffices. -/
def resolveAux : Nat → Option Nat → List LessonsListItem →
    List ModuleTreeItem × List LessonsListItem
  | 0, _, stack => ([], stack)
  | fuel + 1, parent_id, stack =>
    let parts := stack.partition (fun item => item.parent_id == parent_id)
    let (tree_level, remaining_stack) := resolveLevel (resolveAux fuel) parts.1 parts.2
    (sortNodes tree_level, remaining_stack)

/-- `resolve_module_tree` from `src/main.rs`. -/
def resolve_module_tree (parent_id : Option Nat) (stack : List LessonsListItem) :
    List ModuleTreeItem × List LessonsListItem :=
  resolveAux (stack.length + 1) parent_id stack

mutual

/-- All list items contained in a tree node (the node's own `item` plus,
for categories, everything in its children). -/
def nodeItems : ModuleTreeItem → List LessonsListItem
  | .category item children => item :: treeItems children
  | .lesson item => [item]

/-- All list items contained in a forest of tree nodes. -/
def treeItems : List ModuleTreeItem → List LessonsListItem
  | [] => []
  | n :: ns => nodeItems n ++ treeItems ns

end

/-- Loop of `resolveAuxL`, parameterized by the recursive resolver,
collecting anomaly log entries. -/
def resolveLevelL
    (f : Option Nat → List LessonsListItem →
      (List ModuleTreeItem × List LessonsListItem) ×
        List (LessonsListItem × List ModuleTreeItem)) :
    List LessonsListItem → List LessonsListItem →
    (List ModuleTreeItem × List LessonsListItem) ×
      List (LessonsListItem × List ModuleTreeItem)
  | [], pool => (([], pool), [])
  | item :: items, pool =>
    let ((children, remaining), logs₁) := f (some item.id) pool
    let (node, logs₂) :=
      if item.is_category then (ModuleTreeItem.category item children, [])
      else if children.isEmpty then (ModuleTreeItem.lesson item, [])
      else (ModuleTreeItem.lesson item, [(item, children)])
    let ((nodes, remaining'), logs₃) := resolveLevelL f items remaining
    ((node :: nodes, remaining'), logs₁ ++ logs₂ ++ logs₃)

/-- Instrumented variant of `resolveAux` that additionally collects the
`error!` anomaly events emitted when a non-category item has collected
children (`Collected children for a tree item which is not a category!`).
Each log entry records the offending item and the dropped children. -/
def resolveAuxL : Nat → Option Nat → List LessonsListItem →
    (List ModuleTreeItem × List LessonsListItem) ×
      List (LessonsListItem × List ModuleTreeItem)
  | 0, _, stack => (([], stack), [])
  | fuel + 1, parent_id, stack =>
    let parts := stack.partition (fun item => item.parent_id == parent_id)
    let ((tree_level, remaining_stack), logs) :=
      resolveLevelL (resolveAuxL fuel) parts.1 parts.2
    ((sortNodes tree_level, remaining_stack), logs)

/-- `resolve_module_tree` together with the anomaly log. -/
def resolve_module_tree_logged (parent_id : Option Nat)
    (stack : List LessonsListItem) :
    (List ModuleTreeItem × List LessonsListItem) ×
      List (LessonsListItem × List ModuleTreeItem) :=
  resolveAuxL (stack.length + 1) parent_id stack

/-- The list items sitting inside the dropped-children payloads of an
anomaly log: the occurrences a run of `resolve_module_tree` silently loses
(they are consumed from the pool but never attached to the tree). -/
def droppedItems (logs : List (LessonsListItem × List ModuleTreeItem)) :
    List LessonsListItem :=
  logs.flatMap (fun e => treeItems e.2)

/-- An item of `pool` whose parent chain (through items of `pool`) reaches
the parent reference `parent_id`: exactly the items `resolve_module_tree
parent_id pool` extracts into the tree. -/
inductive RootedAt (parent_id : Option Nat) (pool : List LessonsListItem) :
    LessonsListItem → Prop
  | base (x : LessonsListItem) : x.parent_id = parent_id → RootedAt parent_id pool x
  | step (x p : LessonsListItem) : p ∈ pool → x.parent_id = some p.id →
      RootedAt parent_id pool p → RootedAt parent_id pool x

/-- Boolean form of the claim hypothesis for the resolver: the item is a
root item, or some category in `stack` carries the referenced parent id. -/
def parentOk (stack : List LessonsListItem) (x : LessonsListItem) : Bool :=
  match x.parent_id with
  | none => true
  | some p => stack.any (fun c => c.id == p && c.is_category)

/-- First component of the stack partition in `resolve_module_tree`: the
items of the current tree level. -/
def levelOf (parent_id : Option Nat) (stack : List LessonsListItem) :
    List LessonsListItem :=
  stack.filter (fun item => item.parent_id == parent_id)

/-- Second component of the stack partition in `resolve_module_tree`: the
remaining pool handed to the recursion. -/
def restOf (parent_id : Option Nat) (stack : List LessonsListItem) :
    List LessonsListItem :=
  stack.filter (fun item => !(item.parent_id == parent_id))

/-! ## Module tree normalizer (src/main.rs, `normalize_module_tree`)

The source loops over the root items maintaining the normalized tree built
so far plus the index of the latest visited empty root category; a root
lesson is pushed into that category's children while the marker is armed.
The loop body is `normStep`; the state is the pair
`(normalized_tree, latest_empty_category)`. -/

/-- One iteration of the `normalize_module_tree` loop.  The
`unreachable!` arm (marker pointing at a `lesson`) and the out-of-bounds
panic of `normalized_tree[empty_category_index]` are modelled benignly by
pushing the lesson at the root; `normalize_marker_invariant` proves these
arms are never reached from the initial state. -/
def normStep (st : List ModuleTreeItem × Option Nat) (tree_item : ModuleTreeItem) :
    List ModuleTreeItem × Option Nat :=
  match tree_item with
  | .category item children =>
    let normalized := st.1 ++ [ModuleTreeItem.category item children]
    if children.isEmpty then (normalized, some (normalized.length - 1))
    else (normalized, none)
  | .lesson item =>
    match st.2 with
    | some empty_category_index =>
      match st.1[empty_category_index]? with
      | some (.category cat_item cat_children) =>
        (st.1.set empty_category_index
          (ModuleTreeItem.category cat_item
            (cat_children ++ [ModuleTreeItem.lesson item])), st.2)
      | _ => (st.1 ++ [ModuleTreeItem.lesson item], st.2)
    | none => (st.1 ++ [ModuleTreeItem.lesson item], none)

/-- `normalize_module_tree` from `src/main.rs`. -/
def normalize_module_tree (module_tree : List ModuleTreeItem) :
    List ModuleTreeItem :=
  (module_tree.foldl normStep ([], none)).1

/-- Is this node a `Category`? -/
def isCat : ModuleTreeItem → Bool
  | .category _ _ => true
  | .lesson _ => false

/-- Is this node a `Category` with an empty children sequence? -/
def isEmptyCat : ModuleTreeItem → Bool
  | .category _ [] => true
  | _ => false

/-- The `Lesson { .. } => unreachable!` arm of the normalizer (together
with the indexing panic) is not hit by this step: `true` unless the item is
a root lesson, the marker is armed, and the marked slot is absent or not a
category. -/
def normStepSafe (st : List ModuleTreeItem × Option Nat)
    (tree_item : ModuleTreeItem) : Bool :=
  match tree_item with
  | .category _ _ => true
  | .lesson _ =>
    match st.2 with
    | none => true
    | some i =>
      match st.1[i]? with
      | some (.category _ _) => true
      | _ => false

/-- A root sequence in which an empty category is never immediately
followed by a non-category: the shape the normalizer's output always has
(an armed marker swallows every following root lesson, so an empty category
can only be followed by another category or the end of the list). -/
def goodTree (l : List ModuleTreeItem) : Prop :=
  List.Chain' (fun a b => isEmptyCat a = true → isCat b = true) l

/-- The marker state the normalizer's loop is in after having copied `l`
verbatim: armed at the last position exactly when the last node is an empty
category. -/
def armedFor (l : List ModuleTreeItem) : Option Nat :=
  match l.getLast? with
  | some t => if isEmptyCat t then some (l.length - 1) else none
  | none => none

/-- Loop invariant of `normalize_module_tree`: the tree built so far has
the `goodTree` shape, an armed marker points at the last slot and that slot
holds a `Category`, and a disarmed marker means the last slot (if any) is
not an empty category. -/
def NormInv (st : List ModuleTreeItem × Option Nat) : Prop :=
  goodTree st.1 ∧
  (∀ i, st.2 = some i →
    i + 1 = st.1.length ∧
    ∃ a cs, st.1[i]? = some (ModuleTreeItem.category a cs)) ∧
  (st.2 = none → ∀ t, st.1.getLast? = some t → isEmptyCat t = false)

/-! ## Asset discovery and download execution (src/main.rs)

`download_content_block_assets_recursive` flattens a lesson's content block
tree into a stream of download futures: per block, first the recursion into
`children`, then one `download_embed` future per iframe URL extracted from
the inline text, then per good a `download_file` future (if a file is
attached) followed by a `download_video` future (if wistia data is
attached).  The iframe extraction (a fixed regex over the HTML) is an
external collaborator here, passed in as `extract`. -/

/-- One discovered download task. -/
inductive DownloadTask where
  | embed (url : String)
  | file (file : FileAsset)
  | video (wistia_data : WistiaData)

mutual

/-- `download_content_block_assets_recursive`: the discovered tasks, in
stream order. -/
def discoverTasks (extract : String → List String) :
    List ContentBlock → List DownloadTask
  | [] => []
  | b :: bs => discoverBlock extract b ++ discoverTasks extract bs

/-- Tasks of a single content block: children first, then text embeds,
then goods (file before wistia video, as pushed by the source). -/
def discoverBlock (extract : String → List String) :
    ContentBlock → List DownloadTask
  | .mk children text goods =>
    discoverTasks extract children ++
    (match text with
     | some content => (extract content).map DownloadTask.embed
     | none => []) ++
    (match goods with
     | some gs =>
       gs.flatMap (fun good =>
         (match good.file with
          | some f => [DownloadTask.file f]
          | none => []) ++
         (match good.wistia_data with
          | some w => [DownloadTask.video w]
          | none => []))
     | none => [])

end

/-- The sentinel URL meaning "no file attached" (`download_file`). -/
def missingFileSentinel : String :=
  "https://api.elopage.com/pca/digitals/files/original/missing.png"

/-- URLs actually fetched by `download_file`: the original URL unless it is
absent or equals the missing-file sentinel. -/
def download_file_urls (file : FileAsset) : List String :=
  match file.original with
  | some original =>
    if original = missingFileSentinel then [] else [original]
  | none => []

/-- Rust `Iterator::max_by_key` on `file_size`: returns the last maximal
element, `none` on an empty iterator. -/
def maxByFileSize (assets : List Asset) : Option Asset :=
  assets.foldl
    (fun best a =>
      match best with
      | none => some a
      | some b => if b.file_size ≤ a.file_size then some a else some b)
    none

/-- `download_video`: `none` models the `assert!` panic (assets present but
declared type not `Some("Video")`); otherwise the list of URLs fetched
(the largest variant, if any). -/
def download_video_run (wistia_data : WistiaData) : Option (List String) :=
  match wistia_data.assets with
  | some assets =>
    if wistia_data.type = some "Video" then
      some (match maxByFileSize assets with
            | some asset => [asset.url]
            | none => [])
    else none
  | none => some []

/-- Effect of running one download task: `none` models a panic, otherwise
the URLs actually downloaded (an embed task invokes the external helper on
its URL). -/
def runTask : DownloadTask → Option (List String)
  | .embed url => some [url]
  | .file f => some (download_file_urls f)
  | .video w => download_video_run w

/-- Run all discovered tasks in order; `none` if any of them panics. -/
def runTasks (tasks : List DownloadTask) : Option (List String) :=
  (tasks.mapM runTask).map List.flatten

/-! ## External process supervisor (src/main.rs, `download_embed` /
`child_read_to_end`)

The effectful child process is abstracted by the observable behaviour of
one invocation: whether reading each piped stream fails, whether the
OS-level `wait` fails, and the exit code the child reports. -/

/-- Observable behaviour of one spawned `yt-dlp` child process. -/
structure ChildBehavior where
  stdout_read_error : Bool
  stderr_read_error : Bool
  wait_error : Bool
  exit_code : Nat
deriving Repr, DecidableEq

/-- `child_read_to_end`: joins the two stream consumers with awaiting the
child's exit; any I/O failure is an error.  `child.wait()` only fails when
the OS cannot wait on the process — the returned `ExitStatus` is discarded
by the source, so `exit_code` is never consulted. -/
def child_read_to_end (child : ChildBehavior) : Except String Unit :=
  if child.stdout_read_error then .error "stdout read failed"
  else if child.stderr_read_error then .error "stderr read failed"
  else if child.wait_error then .error "yt-dlp command failed to run"
  else .ok ()

/-- `download_embed`: spawn the helper (`none` = spawn failure) and hand
the child to `child_read_to_end`. -/
def download_embed (spawned : Option ChildBehavior) : Except String Unit :=
  match spawned with
  | none => .error "yt-dlp command failed to start"
  | some child => child_read_to_end child

/-! ## Concrete instances used in scenarios and witnesses -/

/-- A root lesson (not a category). -/
def exLessonParent : LessonsListItem := ⟨1, "parent", true, none, false, none, 0⟩

/-- An item whose `parent_id` points at the root lesson `exLessonParent`. -/
def exChild : LessonsListItem := ⟨2, "child", true, none, false, some 1, 0⟩

/-- A category that is its own parent (`parent_id = some id`). -/
def exSelfParent : LessonsListItem := ⟨500, "self", true, none, true, some 500, 0⟩

/-- Hosted video with encoded variants of byte sizes 100, 500 and 50. -/
def exWistia : WistiaData :=
  ⟨some "v", some "Video", some [⟨"u100", 100⟩, ⟨"u500", 500⟩, ⟨"u50", 50⟩]⟩

/-- File asset whose source URL is the missing-file sentinel. -/
def exSentinelFile : FileAsset := ⟨some "f", some missingFileSentinel⟩

/-- Content block carrying the sentinel file and the hosted video. -/
def exChildBlock : ContentBlock :=
  .mk [] none (some [⟨some exWistia, some exSentinelFile⟩])

/-- Content block whose single child is `exChildBlock`. -/
def exOuterBlock : ContentBlock := .mk [exChildBlock] none none

/-- A root category (for the resolver completeness witness). -/
def exCat : LessonsListItem := ⟨10, "cat", true, none, true, none, 0⟩

/-- A lesson below `exCat`. -/
def exSub : LessonsListItem := ⟨11, "sub", true, none, false, some 10, 0⟩

/-- A root lesson (for the resolver completeness witness). -/
def exRootLesson : LessonsListItem := ⟨12, "root", true, none, false, none, 1⟩

/-! # Theorems -/

/-! ## Path sanitizer lemmas -/

set_option maxHeartbeats 2000000 in
theorem unescapeList_cons_ne {c : Char} (s : List Char) (h : c ≠ '&') :
    unescapeList (c :: s) = c :: unescapeList s := by
  rw [unescapeList.eq_def]
  exact if_neg h

theorem unescapeList_eq_self {s : List Char} (h : '&' ∉ s) : unescapeList s = s := by
  induction s with
  | nil => rfl
  | cons c rest ih =>
    have hc : c ≠ '&' := fun hh => h (by simp [hh])
    rw [unescapeList_cons_ne rest hc, ih (fun hh => h (List.mem_cons_of_mem c hh))]

theorem replaceColonSpace_cons_ne {c : Char} (s : List Char) (h : c ≠ ':') :
    replaceColonSpace (c :: s) = c :: replaceColonSpace s := by
  rw [replaceColonSpace.eq_def]
  split
  · simp_all
  · rename_i hx heq
    injection heq with h1 h2
    subst h1
    subst h2
    rfl
  · rename_i heq
    exact (List.cons_ne_nil c s heq).elim

theorem replaceColonSpace_eq_self {s : List Char} (h : ':' ∉ s) :
    replaceColonSpace s = s := by
  induction s with
  | nil => rfl
  | cons c rest ih =>
    have hc : c ≠ ':' := fun hh => h (by simp [hh])
    rw [replaceColonSpace_cons_ne rest hc,
      ih (fun hh => h (List.mem_cons_of_mem c hh))]

theorem replaceSpaceSlashSpace_cons (c : Char) (s : List Char) (h : '/' ∉ s) :
    replaceSpaceSlashSpace (c :: s) = c :: replaceSpaceSlashSpace s := by
  rw [replaceSpaceSlashSpace.eq_def]
  split
  · simp_all
  · rename_i hx heq
    injection heq with h1 h2
    subst h1
    subst h2
    rfl
  · rename_i heq
    exact (List.cons_ne_nil c s heq).elim

theorem replaceSpaceSlashSpace_eq_self {s : List Char} (h : '/' ∉ s) :
    replaceSpaceSlashSpace s = s := by
  induction s with
  | nil => rfl
  | cons c rest ih =>
    rw [replaceSpaceSlashSpace_cons c rest (by simp_all), ih (by simp_all)]

theorem replaceSlash_eq_self {s : List Char} (h : '/' ∉ s) : replaceSlash s = s := by
  induction s with
  | nil => rfl
  | cons c rest ih =>
    simp only [replaceSlash, List.flatMap_cons] at *
    have hc : c ≠ '/' := by rintro rfl; simp at h
    simp only [if_neg hc]
    simp_all [replaceSlash]

theorem replaceStar_eq_self {s : List Char} (h : '*' ∉ s) : replaceStar s = s := by
  unfold replaceStar
  rw [List.map_congr_left, List.map_id]
  intro c hc
  have : c ≠ '*' := by rintro rfl; exact h hc
  simp [this]

theorem removeChars_eq_self {cs s : List Char} (h : ∀ c ∈ s, c ∉ cs) :
    removeChars cs s = s := by
  unfold removeChars
  rw [List.filter_eq_self]
  intro c hc
  simpa using h c hc

theorem mem_removeChars {cs s : List Char} {c : Char} (h : c ∈ removeChars cs s) :
    c ∈ s ∧ c ∉ cs := by
  unfold removeChars at h
  have := List.of_mem_filter h
  exact ⟨List.mem_of_mem_filter h, by simpa using this⟩

theorem head_dropWhile_false {p : Char → Bool} {l : List Char} {c : Char}
    (h : (l.dropWhile p).head? = some c) : p c = false := by
  induction l with
  | nil => simp at h
  | cons a rest ih =>
    by_cases ha : p a
    · rw [List.dropWhile_cons_of_pos ha] at h
      exact ih h
    · rw [List.dropWhile_cons_of_neg ha] at h
      simp at h
      subst h
      simpa using ha

theorem dropWhile_eq_self_of_head {p : Char → Bool} {l : List Char}
    (h : ∀ c ∈ l.head?, p c = false) : l.dropWhile p = l := by
  cases l with
  | nil => rfl
  | cons a rest =>
    have : p a = false := h a (by simp)
    simp [List.dropWhile_cons, this]

theorem mem_trimList {s : List Char} {c : Char} (h : c ∈ trimList s) : c ∈ s := by
  unfold trimList at h
  rw [List.mem_reverse] at h
  have h₁ := (List.dropWhile_sublist _).mem h
  rw [List.mem_reverse] at h₁
  exact (List.dropWhile_sublist _).mem h₁

theorem trimList_eq_self {s : List Char}
    (h : ∀ c ∈ s, rustIsWhitespace c = false) : trimList s = s := by
  unfold trimList
  rw [dropWhile_eq_self_of_head (fun c hc => h c (List.mem_of_mem_head? hc)),
    dropWhile_eq_self_of_head (fun c hc => h c (by
      rw [List.head?_reverse] at hc
      exact List.mem_of_mem_getLast? hc)),
    List.reverse_reverse]

theorem trimList_trimList (s : List Char) : trimList (trimList s) = trimList s := by
  have hB : trimList s =
      ((s.dropWhile rustIsWhitespace).reverse.dropWhile rustIsWhitespace).reverse :=
    rfl
  generalize hA : s.dropWhile rustIsWhitespace = A at hB
  generalize hC : A.reverse.dropWhile rustIsWhitespace = C at hB
  by_cases hCnil : C = []
  · rw [hB, hCnil]
    rfl
  · have hheadC : ∀ c ∈ C.head?, rustIsWhitespace c = false := by
      intro c hc
      exact head_dropWhile_false (by rw [hC]; exact hc)
    obtain ⟨u, hu⟩ : C <:+ A.reverse := hC ▸ List.dropWhile_suffix _
    have hlastC : ∀ c ∈ C.getLast?, rustIsWhitespace c = false := by
      intro c hc
      have h₁ : A.reverse.getLast? = some c := by
        rw [← hu, List.getLast?_append_of_ne_nil u hCnil]
        exact hc
      rw [List.getLast?_reverse] at h₁
      exact head_dropWhile_false (hA ▸ h₁)
    have hdropB : C.reverse.dropWhile rustIsWhitespace = C.reverse := by
      apply dropWhile_eq_self_of_head
      intro c hc
      rw [List.head?_reverse] at hc
      exact hlastC c hc
    have hdropC : C.dropWhile rustIsWhitespace = C :=
      dropWhile_eq_self_of_head hheadC
    rw [hB]
    unfold trimList
    rw [hdropB, List.reverse_reverse, hdropC]

theorem safePathList_not_mem_removed {s : List Char} {c : Char}
    (h : c ∈ ['?', '"', ':']) : c ∉ safePathList s := by
  intro hc
  unfold safePathList at hc
  exact (mem_removeChars (mem_trimList hc)).2 h

theorem not_mem_replaceSlash (s : List Char) : '/' ∉ replaceSlash s := by
  intro h
  unfold replaceSlash at h
  rw [List.mem_flatMap] at h
  obtain ⟨c, -, hc⟩ := h
  by_cases h' : c = '/'
  · rw [if_pos h'] at hc
    simp at hc
  · rw [if_neg h'] at hc
    rw [List.mem_singleton] at hc
    exact h' hc.symm

theorem mem_replaceStar {s : List Char} {c : Char} (h : c ∈ replaceStar s) :
    c = '-' ∨ c ∈ s := by
  unfold replaceStar at h
  rw [List.mem_map] at h
  obtain ⟨a, ha, hc⟩ := h
  by_cases h' : a = '*'
  · rw [if_pos h'] at hc
    exact Or.inl hc.symm
  · rw [if_neg h'] at hc
    exact Or.inr (hc ▸ ha)

theorem not_mem_replaceStar_star (s : List Char) : '*' ∉ replaceStar s := by
  intro h
  unfold replaceStar at h
  rw [List.mem_map] at h
  obtain ⟨a, -, ha⟩ := h
  by_cases h' : a = '*'
  · rw [if_pos h'] at ha
    exact absurd ha (by decide)
  · rw [if_neg h'] at ha
    exact h' ha

theorem safePathList_no_slash (s : List Char) : '/' ∉ safePathList s := by
  intro h
  unfold safePathList at h
  have h₁ := (mem_removeChars (mem_trimList h)).1
  rcases mem_replaceStar h₁ with h₂ | h₂
  · exact absurd h₂ (by decide)
  · exact not_mem_replaceSlash _ h₂

theorem safePathList_no_star (s : List Char) : '*' ∉ safePathList s := by
  intro h
  unfold safePathList at h
  exact not_mem_replaceStar_star _ (mem_removeChars (mem_trimList h)).1

theorem safePathList_trimmed (s : List Char) :
    trimList (safePathList s) = safePathList s := by
  unfold safePathList
  exact trimList_trimList _

/-- Core sanitizer fact: a string whose characters are untouched by every
stage of `safe_path` (no HTML-entity starter, no replaced or removed
character, no whitespace) is returned unchanged — in particular `safe_path`
imposes no length bound whatsoever. -/
theorem safe_path_inert {s : String}
    (h₁ : ∀ c ∈ s.data, c ∉ (['&', ':', '/', '*', '?', '"'] : List Char))
    (h₂ : ∀ c ∈ s.data, rustIsWhitespace c = false) :
    safe_path s = s := by
  have hmem : ∀ (c : Char), c ∈ (['&', ':', '/', '*', '?', '"'] : List Char) →
      c ∉ s.data := fun c hc hs => h₁ c hs hc
  unfold safe_path safePathList
  rw [unescapeList_eq_self (hmem '&' (by decide)),
    replaceColonSpace_eq_self (hmem ':' (by decide)),
    replaceSpaceSlashSpace_eq_self (hmem '/' (by decide)),
    replaceSlash_eq_self (hmem '/' (by decide)),
    replaceStar_eq_self (hmem '*' (by decide)),
    removeChars_eq_self (fun c hc h => h₁ c hc (by fin_cases h <;> decide)),
    trimList_eq_self h₂]

/-! ## Claim C3 — the sanitizer does not truncate -/

/-- Claim C3, counterexample: a 300-character input is returned at full
length by `safe_path` — nothing is truncated to roughly 197 characters and
no ellipsis marker is appended, so the returned segment is not bounded by
roughly 200 characters. -/
theorem safe_path_no_truncation_cex :
    (safe_path (String.mk (List.replicate 300 'a'))).length = 300 ∧
    200 < (safe_path (String.mk (List.replicate 300 'a'))).length := by
  have h : safe_path (String.mk (List.replicate 300 'a')) =
      String.mk (List.replicate 300 'a') := by
    apply safe_path_inert
    · intro c hc
      have := List.eq_of_mem_replicate hc
      subst this
      decide
    · intro c hc
      have := List.eq_of_mem_replicate hc
      subst this
      decide
  rw [h]
  have hlen : (String.mk (List.replicate 300 'a')).length = 300 := by
    show (List.replicate 300 'a').length = 300
    rw [List.length_replicate]
  exact ⟨hlen, by rw [hlen]; omega⟩

/-- Claim C3, amended: `safe_path` applies no length bound at all — an
already-inert name of any length `n` (here `n` repetitions of `'a'`) is
returned unchanged, with no truncation and no ellipsis marker. -/
theorem safe_path_never_truncates (n : Nat) :
    safe_path (String.mk (List.replicate n 'a')) =
      String.mk (List.replicate n 'a') := by
  apply safe_path_inert
  · intro c hc
    have := List.eq_of_mem_replicate hc
    subst this
    decide
  · intro c hc
    have := List.eq_of_mem_replicate hc
    subst this
    decide

/-! ## Claim C4 — sanitizer idempotence -/

set_option maxRecDepth 4000 in
/-- Claim C4, counterexample: `safe_path` is not idempotent.  On the input
`"&amp;lt;"` the first application decodes `&amp;` and yields `"&lt;"`; the
second application decodes `&lt;` and yields `"<"`. -/
theorem safe_path_not_idempotent_cex :
    safe_path "&amp;lt;" = "&lt;" ∧
    safe_path (safe_path "&amp;lt;") = "<" ∧
    safe_path (safe_path "&amp;lt;") ≠ safe_path "&amp;lt;" := by
  refine ⟨by decide, by decide, by decide⟩

/-- Claim C4, amended: `safe_path` is idempotent on every input whose
sanitized form contains no `&` (the HTML-entity starter): re-applying the
sanitizer to such an already-sanitized string is a no-op.  (The original
claim fails only because `htmlize::unescape` can decode a second time what
the first decode produced, which requires an `&` in the first output.) -/
theorem safePathList_idem {t : List Char} (h : '&' ∉ safePathList t) :
    safePathList (safePathList t) = safePathList t := by
  conv_lhs => rw [safePathList.eq_def]
  rw [unescapeList_eq_self h,
    replaceColonSpace_eq_self (safePathList_not_mem_removed (by decide)),
    replaceSpaceSlashSpace_eq_self (safePathList_no_slash _),
    replaceSlash_eq_self (safePathList_no_slash _),
    replaceStar_eq_self (safePathList_no_star _),
    removeChars_eq_self (fun c hc hmem =>
      safePathList_not_mem_removed (by simpa using hmem) hc),
    safePathList_trimmed]

theorem safe_path_idempotent_no_amp {s : String}
    (h : '&' ∉ (safe_path s).data) :
    safe_path (safe_path s) = safe_path s := by
  show String.mk (safePathList (safePathList s.data)) =
    String.mk (safePathList s.data)
  exact congrArg String.mk (safePathList_idem h)

/-- Claim C4, witness for the amended theorem at the concrete input
`"ab"`. -/
theorem safe_path_idempotent_no_amp_witness :
    '&' ∉ (safe_path "ab").data ∧ safe_path (safe_path "ab") = safe_path "ab" :=
  ⟨by decide, safe_path_idempotent_no_amp (by decide)⟩

/-! ## Claim C1 — exit status of the external helper -/

/-- Claim C1 (code bug evidence): a spawn failure is indeed a hard error,
but when the helper spawns, its streams drain, and the OS-level wait
succeeds, `child_read_to_end` discards the `ExitStatus` — a run with exit
code 1 still returns success. -/
theorem download_embed_ignores_exit_code :
    download_embed (some ⟨false, false, false, 1⟩) = Except.ok () ∧
    download_embed none = Except.error "yt-dlp command failed to start" :=
  ⟨rfl, rfl⟩

/-! ## Claim C9 — the `assert!` in `download_video` -/

/-- Claim C9: whenever the `assets` field is present but the declared type
is not `Some("Video")`, `download_video` panics via the failed `assert!`
(modelled by `none`) instead of returning an error value. -/
theorem download_video_asserts_video_type (w : WistiaData) (assets : List Asset)
    (ha : w.assets = some assets) (ht : w.type ≠ some "Video") :
    download_video_run w = none := by
  simp [download_video_run, ha, ht]

/-- Claim C9, witness: a wistia payload of declared type `"Audio"` carrying
an (empty) assets list panics. -/
theorem download_video_asserts_video_type_witness :
    download_video_run ⟨some "n", some "Audio", some []⟩ = none :=
  download_video_asserts_video_type _ [] rfl (by decide)

/-! ## Claim C7 — asset discovery scenario -/

/-- Claim C7: on a content block whose single child carries a file asset
with the missing-file sentinel URL and a hosted video with variants of
sizes 100, 500 and 50, discovery yields the file task and the video task,
and running them performs exactly one actual download: the URL of the
size-500 variant.  The sentinel file is skipped; the variant with maximal
byte size is selected.  (`extract` is the iframe extractor, irrelevant
here since there is no inline text.) -/
theorem asset_discovery_scenario (extract : String → List String) :
    discoverTasks extract [exOuterBlock] =
      [DownloadTask.file exSentinelFile, DownloadTask.video exWistia] ∧
    runTasks (discoverTasks extract [exOuterBlock]) = some ["u500"] :=
  ⟨rfl, rfl⟩

/-! ## Claim C2 — a lesson that collected children -/

/-- Claim C2, counterexample: with set input `[exLessonParent, exChild]`
(where `exChild.parent_id` points at the non-category `exLessonParent`),
the resolver consumes `exChild` as a child of a `Lesson` node and then
drops it: it appears neither in the returned tree nor in the remaining
pool, i.e. the children are not kept attached and the item is lost. -/
theorem resolve_module_tree_drops_lesson_children_cex :
    resolve_module_tree none [exLessonParent, exChild] =
      ([ModuleTreeItem.lesson exLessonParent], []) ∧
    exChild ∉ treeItems (resolve_module_tree none [exLessonParent, exChild]).1 ∧
    exChild ∉ (resolve_module_tree none [exLessonParent, exChild]).2 :=
  ⟨rfl, by decide, by decide⟩

/-! ## Normalizer lemmas -/

theorem isEmptyCat_category (a : LessonsListItem) (cs : List ModuleTreeItem) :
    isEmptyCat (ModuleTreeItem.category a cs) = cs.isEmpty := by
  cases cs <;> rfl

theorem normStep_inv {st : List ModuleTreeItem × Option Nat}
    (h : NormInv st) (t : ModuleTreeItem) : NormInv (normStep st t) := by
  obtain ⟨hgood, hsome, hnone⟩ := h
  cases t with
  | category item children =>
    by_cases hch : children.isEmpty
    · simp only [normStep, if_pos hch]
      refine ⟨?_, ?_, ?_⟩
      · exact List.chain'_append.mpr
          ⟨hgood, List.chain'_singleton _, fun x _ y hy => by
            simp at hy
            subst hy
            intro
            rfl⟩
      · intro i hi
        simp only [Option.some.injEq] at hi
        subst hi
        refine ⟨by simp, item, children, ?_⟩
        have h' := List.getElem?_concat_length st.1
          (ModuleTreeItem.category item children)
        have hidx : (st.1 ++ [ModuleTreeItem.category item children]).length - 1 =
            st.1.length := by simp
        rw [hidx]
        exact h'
      · intro h'
        simp at h'
    · simp only [normStep, if_neg hch]
      refine ⟨?_, ?_, ?_⟩
      · exact List.chain'_append.mpr
          ⟨hgood, List.chain'_singleton _, fun x _ y hy => by
            simp at hy
            subst hy
            intro
            rfl⟩
      · intro i hi
        simp at hi
      · intro _ t ht
        rw [List.getLast?_concat] at ht
        simp only [Option.some.injEq] at ht
        subst ht
        rw [isEmptyCat_category]
        simpa using hch
  | lesson item =>
    cases hm : st.2 with
    | none =>
      simp only [normStep, hm]
      refine ⟨?_, ?_, ?_⟩
      · refine List.chain'_append.mpr
          ⟨hgood, List.chain'_singleton _, fun x hx y hy => ?_⟩
        simp at hy
        subst hy
        intro hempty
        rw [hnone hm x hx] at hempty
        exact absurd hempty (by simp)
      · intro i hi
        simp at hi
      · intro _ t ht
        rw [List.getLast?_concat] at ht
        simp only [Option.some.injEq] at ht
        subst ht
        rfl
    | some i =>
      obtain ⟨hlen, a, cs, hget⟩ := hsome i hm
      have hin : i < st.1.length := by omega
      have hlast : st.1.getLast? = some (ModuleTreeItem.category a cs) := by
        rw [List.getLast?_eq_getElem?]
        have : st.1.length - 1 = i := by omega
        rw [this]
        exact hget
      have hsplit : st.1.dropLast ++ [ModuleTreeItem.category a cs] = st.1 :=
        List.dropLast_append_getLast? _ hlast
      have hdlen : st.1.dropLast.length = i := by
        rw [List.length_dropLast]
        omega
      have hset : ∀ x : ModuleTreeItem, st.1.set i x = st.1.dropLast ++ [x] := by
        intro x
        conv_lhs => rw [← hsplit]
        rw [List.set_append_right _ _ (by omega)]
        rw [hdlen]
        simp
      simp only [normStep, hm, hget, hset]
      refine ⟨?_, ?_, ?_⟩
      · have hgood' : goodTree (st.1.dropLast ++ [ModuleTreeItem.category a cs]) := by
          rw [hsplit]
          exact hgood
        obtain ⟨h1, -, -⟩ := List.chain'_append.mp hgood'
        exact List.chain'_append.mpr
          ⟨h1, List.chain'_singleton _, fun x _ y hy => by
            simp at hy
            subst hy
            intro
            rfl⟩
      · intro j hj
        simp only [Option.some.injEq] at hj
        subst hj
        refine ⟨by simp [List.length_append, hdlen], a, ?_⟩
        refine ⟨cs ++ [ModuleTreeItem.lesson item], ?_⟩
        have := List.getElem?_concat_length st.1.dropLast
          (ModuleTreeItem.category a (cs ++ [ModuleTreeItem.lesson item]))
        rw [hdlen] at this
        exact this
      · intro h'
        simp at h'

theorem norm_fold_inv (l : List ModuleTreeItem)
    (st : List ModuleTreeItem × Option Nat) (h : NormInv st) :
    NormInv (List.foldl normStep st l) := by
  induction l generalizing st with
  | nil => exact h
  | cons x xs ih => exact ih _ (normStep_inv h x)

theorem norm_inv_init : NormInv (([] : List ModuleTreeItem), (none : Option Nat)) := by
  refine ⟨List.chain'_nil, ?_, ?_⟩
  · intro i hi
    simp at hi
  · intro _ t ht
    simp at ht

theorem armedFor_concat (zs : List ModuleTreeItem) (y : ModuleTreeItem) :
    armedFor (zs ++ [y]) = if isEmptyCat y then some zs.length else none := by
  unfold armedFor
  rw [List.getLast?_concat]
  simp

theorem norm_pass (ys zs : List ModuleTreeItem) (h : goodTree (zs ++ ys)) :
    List.foldl normStep (zs, armedFor zs) ys = (zs ++ ys, armedFor (zs ++ ys)) := by
  induction ys generalizing zs with
  | nil => simp
  | cons y ys' ih =>
    have hstep : normStep (zs, armedFor zs) y = (zs ++ [y], armedFor (zs ++ [y])) := by
      cases y with
      | category item children =>
        simp only [normStep]
        rw [armedFor_concat, isEmptyCat_category]
        by_cases hch : children.isEmpty
        · rw [if_pos hch, if_pos hch]
          simp
        · rw [if_neg hch, if_neg hch]
      | lesson item =>
        have hz : armedFor zs = none := by
          unfold armedFor
          cases hzs : zs.getLast? with
          | none => rfl
          | some lastz =>
            have hlink := (List.chain'_append.mp h).2.2 lastz hzs
              (ModuleTreeItem.lesson item) (by simp)
            have hfalse : isEmptyCat lastz = false := by
              cases hemp : isEmptyCat lastz
              · rfl
              · exact absurd (hlink hemp) (by simp [isCat])
            simp [hfalse]
        simp only [normStep, hz]
        rw [armedFor_concat, if_neg (by simp [isEmptyCat])]
    rw [List.foldl_cons, hstep,
      ih (zs ++ [y]) (by rwa [List.append_assoc, List.singleton_append]),
      List.append_assoc, List.singleton_append]

/-! ## Claim C6 — normalizer idempotence -/

/-- Claim C6: the module tree normalizer is idempotent — running it twice
yields the same tree as running it once.  The first pass leaves no empty
root category immediately followed by a root lesson (an armed marker
swallows such lessons), so the second pass copies its input verbatim. -/
theorem normalize_module_tree_idempotent (module_tree : List ModuleTreeItem) :
    normalize_module_tree (normalize_module_tree module_tree) =
      normalize_module_tree module_tree := by
  have hinv := norm_fold_inv module_tree _ norm_inv_init
  have hgood : goodTree (normalize_module_tree module_tree) := hinv.1
  have h2 := congrArg Prod.fst
    (norm_pass (normalize_module_tree module_tree) [] (by simpa using hgood))
  simpa using h2

/-! ## Claim C10 — normalizer marker safety -/

/-- Claim C10: throughout the loop of `normalize_module_tree`, whenever the
latest-empty-category marker holds `some i`, `i` is a valid index into the
normalized tree built so far, the element at that index is a `Category`
variant, and the upcoming step cannot hit the `unreachable!` arm (nor the
out-of-bounds indexing panic), whatever the next tree item is. -/
theorem normalize_marker_invariant (module_tree : List ModuleTreeItem)
    (t : ModuleTreeItem) (i : Nat)
    (h : (module_tree.foldl normStep ([], none)).2 = some i) :
    i < (module_tree.foldl normStep ([], none)).1.length ∧
    (∃ a cs, (module_tree.foldl normStep ([], none)).1[i]? =
      some (ModuleTreeItem.category a cs)) ∧
    normStepSafe (module_tree.foldl normStep ([], none)) t = true := by
  have hinv := norm_fold_inv module_tree _ norm_inv_init
  obtain ⟨-, hsome, -⟩ := hinv
  obtain ⟨hlen, a, cs, hget⟩ := hsome i h
  refine ⟨by omega, ⟨a, cs, hget⟩, ?_⟩
  cases t with
  | category item children => rfl
  | lesson item => simp only [normStepSafe, h, hget]

/-- Claim C10, witness: after processing one empty root category the marker
holds `some 0`, slot 0 holds that category, and processing a root lesson
next is safe. -/
theorem normalize_marker_invariant_witness :
    0 < (([ModuleTreeItem.category exCat []]).foldl normStep ([], none)).1.length ∧
    (∃ a cs, (([ModuleTreeItem.category exCat []]).foldl normStep ([], none)).1[0]? =
      some (ModuleTreeItem.category a cs)) ∧
    normStepSafe (([ModuleTreeItem.category exCat []]).foldl normStep ([], none))
      (ModuleTreeItem.lesson exRootLesson) = true :=
  normalize_marker_invariant [ModuleTreeItem.category exCat []]
    (ModuleTreeItem.lesson exRootLesson) 0 rfl

/-! ## Resolver lemmas: unfolding -/

theorem resolveLevel_cons
    (f : Option Nat → List LessonsListItem →
      List ModuleTreeItem × List LessonsListItem)
    (i : LessonsListItem) (is pool : List LessonsListItem) :
    resolveLevel f (i :: is) pool =
      ((if i.is_category then ModuleTreeItem.category i (f (some i.id) pool).1
        else ModuleTreeItem.lesson i) ::
          (resolveLevel f is (f (some i.id) pool).2).1,
       (resolveLevel f is (f (some i.id) pool).2).2) := by
  rcases h1 : f (some i.id) pool with ⟨children, remaining⟩
  rcases h2 : resolveLevel f is remaining with ⟨nodes, rem⟩
  simp [resolveLevel, h1, h2]

theorem resolveAux_succ (fuel : Nat) (parent_id : Option Nat)
    (stack : List LessonsListItem) :
    resolveAux (fuel + 1) parent_id stack =
      (sortNodes (resolveLevel (resolveAux fuel) (levelOf parent_id stack)
          (restOf parent_id stack)).1,
       (resolveLevel (resolveAux fuel) (levelOf parent_id stack)
          (restOf parent_id stack)).2) := by
  have hl : List.filter (fun item => item.parent_id == parent_id) stack =
      levelOf parent_id stack := rfl
  have hr : List.filter (not ∘ fun item => item.parent_id == parent_id) stack =
      restOf parent_id stack := rfl
  rcases h2 : resolveLevel (resolveAux fuel) (levelOf parent_id stack)
      (restOf parent_id stack) with ⟨nodes, rem⟩
  simp [resolveAux, List.partition_eq_filter_filter, hl, hr, h2]

/-! ## Resolver lemmas: the remaining pool is a sublist of the input -/

theorem resolveLevel_rem_sublist
    (f : Option Nat → List LessonsListItem →
      List ModuleTreeItem × List LessonsListItem)
    (hf : ∀ pid pool, ((f pid pool).2).Sublist pool) :
    ∀ level pool, ((resolveLevel f level pool).2).Sublist pool := by
  intro level
  induction level with
  | nil => intro pool; exact List.Sublist.refl _
  | cons i is ih =>
    intro pool
    rw [resolveLevel_cons]
    exact (ih _).trans (hf _ _)

theorem resolveAux_rem_sublist :
    ∀ fuel pid pool, ((resolveAux fuel pid pool).2).Sublist pool := by
  intro fuel
  induction fuel with
  | zero => intro pid pool; exact List.Sublist.refl _
  | succ F ih =>
    intro pid pool
    rw [resolveAux_succ]
    exact (resolveLevel_rem_sublist _ ih _ _).trans (List.filter_sublist _)

theorem restOf_length_lt {pid : Option Nat} {pool : List LessonsListItem}
    {i : LessonsListItem} (hi : i ∈ levelOf pid pool) :
    (restOf pid pool).length < pool.length := by
  have hsub : (restOf pid pool).Sublist pool := List.filter_sublist _
  have hip : i ∈ pool := List.mem_of_mem_filter hi
  have hpred := List.of_mem_filter hi
  have hnot : i ∉ restOf pid pool := by
    intro hmem
    have := List.of_mem_filter hmem
    simp [hpred] at this
  rcases Nat.lt_or_ge (restOf pid pool).length pool.length with h | h
  · exact h
  · exfalso
    have heq : restOf pid pool = pool :=
      hsub.eq_of_length (Nat.le_antisymm hsub.length_le h)
    exact hnot (by rw [heq]; exact hip)

/-! ## Resolver lemmas: `RootedAt` -/

theorem RootedAt.mono {pid : Option Nat}
    {pool pool' : List LessonsListItem} {x : LessonsListItem}
    (h : RootedAt pid pool' x) (hsub : pool' ⊆ pool) : RootedAt pid pool x := by
  induction h with
  | base y hy => exact RootedAt.base y hy
  | step y p hp hyp _ ih => exact RootedAt.step y p (hsub hp) hyp ih

theorem RootedAt.lift {pid : Option Nat} {pool : List LessonsListItem}
    {x i : LessonsListItem} (h : RootedAt (some i.id) pool x)
    (hip : i ∈ pool) (hpid : i.parent_id = pid) : RootedAt pid pool x := by
  induction h with
  | base y hy => exact RootedAt.step y i hip hy (RootedAt.base i hpid)
  | step y p hp hyp _ ih => exact RootedAt.step y p hp hyp ih

/-! ## Resolver lemmas: everything that leaves the pool was rooted -/

theorem resolveLevel_consumed
    (f : Option Nat → List LessonsListItem →
      List ModuleTreeItem × List LessonsListItem)
    (hfS : ∀ pid pool, ((f pid pool).2).Sublist pool)
    (hfW : ∀ pid pool x, x ∈ pool → x ∉ (f pid pool).2 → RootedAt pid pool x) :
    ∀ level pool x, x ∈ pool → x ∉ (resolveLevel f level pool).2 →
      ∃ i ∈ level, ∃ pool', pool'.Sublist pool ∧ x ∈ pool' ∧
        RootedAt (some i.id) pool' x := by
  intro level
  induction level with
  | nil =>
    intro pool x hx hnx
    exact absurd hx hnx
  | cons i is ih =>
    intro pool x hx hnx
    rw [resolveLevel_cons] at hnx
    by_cases hx1 : x ∈ (f (some i.id) pool).2
    · obtain ⟨j, hj, pool', hsub, hxp, hr⟩ := ih _ x hx1 hnx
      exact ⟨j, List.mem_cons_of_mem _ hj, pool', hsub.trans (hfS _ _), hxp, hr⟩
    · exact ⟨i, List.mem_cons_self _ _, pool, List.Sublist.refl _, hx,
        hfW _ _ _ hx hx1⟩

theorem resolveAux_consumed :
    ∀ fuel pid pool x, x ∈ pool → x ∉ (resolveAux fuel pid pool).2 →
      RootedAt pid pool x := by
  intro fuel
  induction fuel with
  | zero =>
    intro pid pool x hx hnx
    exact absurd hx hnx
  | succ F ih =>
    intro pid pool x hx hnx
    rw [resolveAux_succ] at hnx
    by_cases hb : x.parent_id = pid
    · exact RootedAt.base x hb
    · have hxr : x ∈ restOf pid pool := by
        rw [restOf, List.mem_filter]
        exact ⟨hx, by simp [hb]⟩
      obtain ⟨i, hi, pool', hsub, hxp, hr⟩ :=
        resolveLevel_consumed _ (resolveAux_rem_sublist F) ih _ _ x hxr hnx
      have hi_pool : i ∈ pool := List.mem_of_mem_filter hi
      have hi_pid : i.parent_id = pid := by
        have := List.of_mem_filter hi
        simpa using this
      have hmono : RootedAt (some i.id) pool x := by
        apply hr.mono
        intro z hz
        exact List.mem_of_mem_filter (hsub.subset hz)
      exact hmono.lift hi_pool hi_pid

/-! ## Resolver lemmas: a parent nobody references consumes nothing -/

theorem resolveAux_no_match (fuel : Nat) (pid : Option Nat)
    (pool : List LessonsListItem) (h : ∀ x ∈ pool, ¬ x.parent_id = pid) :
    resolveAux fuel pid pool = ([], pool) := by
  cases fuel with
  | zero => rfl
  | succ F =>
    rw [resolveAux_succ]
    have hlvl : levelOf pid pool = [] := by
      rw [levelOf, List.filter_eq_nil_iff]
      intro a ha
      simp [h a ha]
    have hrest : restOf pid pool = pool := by
      rw [restOf, List.filter_eq_self]
      intro a ha
      simp [h a ha]
    rw [hlvl, hrest]
    rfl

/-! ## Resolver lemmas: every rooted item is consumed

Proved simultaneously for the resolver body and its level loop, by
induction on the fuel: the only source of non-consumption is a parent chain
that never reaches the current parent reference (given pairwise-distinct
ids, so that a chain cannot be hijacked by an unrelated item of equal id). -/

theorem resolveAux_completes :
    ∀ fuel : Nat,
    (∀ pid pool x, pool.length < fuel →
      pool.Pairwise (fun a b => a.id ≠ b.id) →
      x ∈ pool → RootedAt pid pool x → x ∉ (resolveAux fuel pid pool).2) ∧
    (∀ level pool (x p : LessonsListItem), pool.length < fuel →
      pool.Pairwise (fun a b => a.id ≠ b.id) →
      p ∈ level → x ∈ pool → x.parent_id = some p.id →
      x ∉ (resolveLevel (resolveAux fuel) level pool).2) ∧
    (∀ level pool (x p : LessonsListItem), pool.length < fuel →
      pool.Pairwise (fun a b => a.id ≠ b.id) →
      x ∈ pool → p ∈ pool → x.parent_id = some p.id →
      p ∉ (resolveLevel (resolveAux fuel) level pool).2 →
      x ∉ (resolveLevel (resolveAux fuel) level pool).2) := by
  intro fuel
  induction fuel with
  | zero =>
    refine ⟨?_, ?_, ?_⟩
    · intro pid pool x hlen
      exact absurd hlen (Nat.not_lt_zero _)
    · intro level pool x p hlen
      exact absurd hlen (Nat.not_lt_zero _)
    · intro level pool x p hlen
      exact absurd hlen (Nat.not_lt_zero _)
  | succ F ih =>
    obtain ⟨ihRes, ihA, ihB⟩ := ih
    have hres : ∀ pid pool x, pool.length < F + 1 →
        pool.Pairwise (fun a b => a.id ≠ b.id) →
        x ∈ pool → RootedAt pid pool x →
        x ∉ (resolveAux (F + 1) pid pool).2 := by
      intro pid pool x hlen huniq hx hr
      rw [resolveAux_succ]
      revert hx
      induction hr with
      | base y hy =>
        intro _ hmem
        have hyr : y ∈ restOf pid pool :=
          (resolveLevel_rem_sublist _ (resolveAux_rem_sublist F) _ _).subset hmem
        have := List.of_mem_filter hyr
        simp [hy] at this
      | step y p hp hyp hrp ihp =>
        intro hy_mem hmem
        by_cases hyb : y.parent_id = pid
        · have hyr : y ∈ restOf pid pool :=
            (resolveLevel_rem_sublist _ (resolveAux_rem_sublist F) _ _).subset hmem
          have := List.of_mem_filter hyr
          simp [hyb] at this
        · have hyr : y ∈ restOf pid pool := by
            rw [restOf, List.mem_filter]
            exact ⟨hy_mem, by simp [hyb]⟩
          by_cases hpb : p.parent_id = pid
          · have hpl : p ∈ levelOf pid pool := by
              rw [levelOf, List.mem_filter]
              exact ⟨hp, by simp [hpb]⟩
            have hrlen : (restOf pid pool).length < F := by
              have := restOf_length_lt hpl
              omega
            have huniq' : (restOf pid pool).Pairwise (fun a b => a.id ≠ b.id) :=
              List.Pairwise.sublist (List.filter_sublist _) huniq
            exact ihA (levelOf pid pool) (restOf pid pool) y p hrlen huniq'
              hpl hyr hyp hmem
          · have hpr : p ∈ restOf pid pool := by
              rw [restOf, List.mem_filter]
              exact ⟨hp, by simp [hpb]⟩
            have hpnot : p ∉ (resolveLevel (resolveAux F) (levelOf pid pool)
                (restOf pid pool)).2 := ihp hp
            rcases hlv : levelOf pid pool with _ | ⟨i0, is0⟩
            · rw [hlv] at hpnot
              exact hpnot hpr
            · have hi0 : i0 ∈ levelOf pid pool := by
                rw [hlv]
                exact List.mem_cons_self _ _
              have hrlen : (restOf pid pool).length < F := by
                have := restOf_length_lt hi0
                omega
              have huniq' : (restOf pid pool).Pairwise (fun a b => a.id ≠ b.id) :=
                List.Pairwise.sublist (List.filter_sublist _) huniq
              exact ihB (levelOf pid pool) (restOf pid pool) y p hrlen huniq'
                hyr hpr hyp hpnot hmem
    have hA : ∀ level pool (x p : LessonsListItem), pool.length < F + 1 →
        pool.Pairwise (fun a b => a.id ≠ b.id) →
        p ∈ level → x ∈ pool → x.parent_id = some p.id →
        x ∉ (resolveLevel (resolveAux (F + 1)) level pool).2 := by
      intro level
      induction level with
      | nil =>
        intro pool x p _ _ hp
        exact absurd hp (List.not_mem_nil _)
      | cons i is ihl =>
        intro pool x p hlen huniq hp hx hxp
        rw [resolveLevel_cons]
        rcases List.mem_cons.mp hp with rfl | hp'
        · have hx1 : x ∉ (resolveAux (F + 1) (some p.id) pool).2 :=
            hres (some p.id) pool x hlen huniq hx (RootedAt.base x hxp)
          intro hmem
          exact hx1
            ((resolveLevel_rem_sublist _ (resolveAux_rem_sublist _) _ _).subset hmem)
        · by_cases hx1 : x ∈ (resolveAux (F + 1) (some i.id) pool).2
          · have hlen1 : ((resolveAux (F + 1) (some i.id) pool).2).length < F + 1 :=
              Nat.lt_of_le_of_lt (resolveAux_rem_sublist _ _ _).length_le hlen
            have huniq1 : ((resolveAux (F + 1) (some i.id) pool).2).Pairwise
                (fun a b => a.id ≠ b.id) :=
              List.Pairwise.sublist (resolveAux_rem_sublist _ _ _) huniq
            exact ihl _ x p hlen1 huniq1 hp' hx1 hxp
          · intro hmem
            exact hx1
              ((resolveLevel_rem_sublist _ (resolveAux_rem_sublist _) _ _).subset hmem)
    have hB : ∀ level pool (x p : LessonsListItem), pool.length < F + 1 →
        pool.Pairwise (fun a b => a.id ≠ b.id) →
        x ∈ pool → p ∈ pool → x.parent_id = some p.id →
        p ∉ (resolveLevel (resolveAux (F + 1)) level pool).2 →
        x ∉ (resolveLevel (resolveAux (F + 1)) level pool).2 := by
      intro level
      induction level with
      | nil =>
        intro pool x p _ _ _ hp _ hpnot
        exact absurd hp hpnot
      | cons i is ihl =>
        intro pool x p hlen huniq hx hp hxp hpnot
        rw [resolveLevel_cons] at hpnot ⊢
        by_cases hpp : p ∈ (resolveAux (F + 1) (some i.id) pool).2
        · by_cases hx1 : x ∈ (resolveAux (F + 1) (some i.id) pool).2
          · have hlen1 : ((resolveAux (F + 1) (some i.id) pool).2).length < F + 1 :=
              Nat.lt_of_le_of_lt (resolveAux_rem_sublist _ _ _).length_le hlen
            have huniq1 : ((resolveAux (F + 1) (some i.id) pool).2).Pairwise
                (fun a b => a.id ≠ b.id) :=
              List.Pairwise.sublist (resolveAux_rem_sublist _ _ _) huniq
            exact ihl _ x p hlen1 huniq1 hx1 hpp hxp hpnot
          · intro hmem
            exact hx1
              ((resolveLevel_rem_sublist _ (resolveAux_rem_sublist _) _ _).subset hmem)
        · have hrx : RootedAt (some i.id) pool x :=
            RootedAt.step x p hp hxp (resolveAux_consumed (F + 1) _ pool p hp hpp)
          have hx1 : x ∉ (resolveAux (F + 1) (some i.id) pool).2 :=
            hres _ pool x hlen huniq hx hrx
          intro hmem
          exact hx1
            ((resolveLevel_rem_sublist _ (resolveAux_rem_sublist _) _ _).subset hmem)
    exact ⟨hres, hA, hB⟩

/-! ## Resolver lemmas: item conservation -/

theorem treeItems_eq_flatten :
    ∀ ns : List ModuleTreeItem, treeItems ns = (ns.map nodeItems).flatten := by
  intro ns
  induction ns with
  | nil => rfl
  | cons n ns ih => simp [treeItems, ih]

theorem insertNode_perm (x : ModuleTreeItem) :
    ∀ l : List ModuleTreeItem, (insertNode x l).Perm (x :: l) := by
  intro l
  induction l with
  | nil => exact List.Perm.refl _
  | cons y ys ih =>
    rw [insertNode]
    by_cases hpos : nodePosition x < nodePosition y
    · rw [if_pos hpos]
    · rw [if_neg hpos]
      exact (ih.cons y).trans (List.Perm.swap x y ys)

theorem sortNodes_perm : ∀ ns : List ModuleTreeItem, (sortNodes ns).Perm ns := by
  intro ns
  induction ns with
  | nil => exact List.Perm.refl _
  | cons n ns ih => exact (insertNode_perm n (sortNodes ns)).trans (ih.cons n)

theorem treeItems_perm {ns ns' : List ModuleTreeItem} (h : ns.Perm ns') :
    (treeItems ns).Perm (treeItems ns') := by
  rw [treeItems_eq_flatten, treeItems_eq_flatten]
  exact (h.map nodeItems).flatten

theorem resolveLevel_conserves
    (L : List LessonsListItem)
    (hL : ∀ (x : LessonsListItem) (p : Nat), x ∈ L → x.parent_id = some p →
      ∀ y ∈ L, y.id = p → y.is_category = true)
    (f : Option Nat → List LessonsListItem →
      List ModuleTreeItem × List LessonsListItem)
    (hfS : ∀ pid pool, ((f pid pool).2).Sublist pool)
    (hfC : ∀ pid pool, pool ⊆ L →
      (treeItems (f pid pool).1 ++ (f pid pool).2).Perm pool)
    (hfN : ∀ (i : LessonsListItem) pool, (∀ x ∈ pool, ¬ x.parent_id = some i.id) →
      f (some i.id) pool = ([], pool)) :
    ∀ level pool, level ⊆ L → pool ⊆ L →
      (treeItems (resolveLevel f level pool).1 ++
        (resolveLevel f level pool).2).Perm (level ++ pool) := by
  intro level
  induction level with
  | nil =>
    intro pool _ _
    simp [resolveLevel, treeItems]
  | cons i is ih =>
    intro pool hlv hpool
    have hiL : i ∈ L := hlv (List.mem_cons_self _ _)
    have hisL : is ⊆ L := fun z hz => hlv (List.mem_cons_of_mem _ hz)
    rw [resolveLevel_cons]
    by_cases hcat : i.is_category
    · rw [if_pos hcat]
      have h1 := ih ((f (some i.id) pool).2) hisL
        ((hfS _ _).subset.trans hpool)
      have h2 := hfC (some i.id) pool hpool
      show ((i :: (treeItems (f (some i.id) pool).1 ++
          treeItems (resolveLevel f is (f (some i.id) pool).2).1)) ++
          (resolveLevel f is (f (some i.id) pool).2).2).Perm ((i :: is) ++ pool)
      rw [List.cons_append, List.cons_append]
      refine List.Perm.cons i ?_
      have e1 : (treeItems (f (some i.id) pool).1 ++
          treeItems (resolveLevel f is (f (some i.id) pool).2).1) ++
          (resolveLevel f is (f (some i.id) pool).2).2 =
          treeItems (f (some i.id) pool).1 ++
            (treeItems (resolveLevel f is (f (some i.id) pool).2).1 ++
              (resolveLevel f is (f (some i.id) pool).2).2) := by
        rw [List.append_assoc]
      rw [e1]
      have e2 : (treeItems (f (some i.id) pool).1 ++
          (is ++ (f (some i.id) pool).2)).Perm
          (is ++ (treeItems (f (some i.id) pool).1 ++ (f (some i.id) pool).2)) := by
        rw [← List.append_assoc, ← List.append_assoc]
        exact List.Perm.append_right _ List.perm_append_comm
      exact ((List.Perm.append_left _ h1).trans e2).trans
        (List.Perm.append_left _ h2)
    · rw [if_neg hcat]
      have hnoref : ∀ x ∈ pool, ¬ x.parent_id = some i.id := by
        intro x hx hxp
        have := hL x i.id (hpool hx) hxp i hiL rfl
        rw [this] at hcat
        exact hcat rfl
      rw [hfN i pool hnoref]
      have h1 := ih pool hisL hpool
      show ((i :: treeItems (resolveLevel f is pool).1) ++
          (resolveLevel f is pool).2).Perm ((i :: is) ++ pool)
      rw [List.cons_append, List.cons_append]
      exact List.Perm.cons i h1

theorem resolveAux_conserves
    (L : List LessonsListItem)
    (hL : ∀ (x : LessonsListItem) (p : Nat), x ∈ L → x.parent_id = some p →
      ∀ y ∈ L, y.id = p → y.is_category = true) :
    ∀ fuel pid pool, pool ⊆ L →
      (treeItems (resolveAux fuel pid pool).1 ++
        (resolveAux fuel pid pool).2).Perm pool := by
  intro fuel
  induction fuel with
  | zero =>
    intro pid pool _
    simp [resolveAux, treeItems]
  | succ F ih =>
    intro pid pool hpool
    rw [resolveAux_succ]
    have hlvE : levelOf pid pool ⊆ L := fun z hz =>
      hpool (List.mem_of_mem_filter hz)
    have hrsE : restOf pid pool ⊆ L := fun z hz =>
      hpool (List.mem_of_mem_filter hz)
    have h1 := resolveLevel_conserves L hL (resolveAux F)
      (resolveAux_rem_sublist F) (fun pid' pool' h' => ih pid' pool' h')
      (fun i pool' h' => resolveAux_no_match F (some i.id) pool' h')
      (levelOf pid pool) (restOf pid pool) hlvE hrsE
    have hsort : (treeItems (sortNodes (resolveLevel (resolveAux F)
        (levelOf pid pool) (restOf pid pool)).1)).Perm
        (treeItems (resolveLevel (resolveAux F)
          (levelOf pid pool) (restOf pid pool)).1) :=
      treeItems_perm (sortNodes_perm _)
    exact ((List.Perm.append_right _ hsort).trans h1).trans
      (List.filter_append_perm _ pool)

/-! ## Resolver lemmas: fuel irrelevance (termination) -/

theorem resolveAux_fuel_irrelevant :
    ∀ f₁ f₂ pid pool, pool.length < f₁ → pool.length < f₂ →
      resolveAux f₁ pid pool = resolveAux f₂ pid pool := by
  intro f₁
  induction f₁ with
  | zero =>
    intro f₂ pid pool h1
    exact absurd h1 (Nat.not_lt_zero _)
  | succ a iha =>
    intro f₂ pid pool h1 h2
    cases f₂ with
    | zero => exact absurd h2 (Nat.not_lt_zero _)
    | succ b =>
      rw [resolveAux_succ, resolveAux_succ]
      rcases hlvl : levelOf pid pool with _ | ⟨i0, is0⟩
      · rfl
      · have hi0 : i0 ∈ levelOf pid pool := by
          rw [hlvl]
          exact List.mem_cons_self _ _
        have hrlt : (restOf pid pool).length < pool.length := restOf_length_lt hi0
        have hinner : ∀ (level pool' : List LessonsListItem),
            pool'.length < a → pool'.length < b →
            resolveLevel (resolveAux a) level pool' =
              resolveLevel (resolveAux b) level pool' := by
          intro level
          induction level with
          | nil => intro pool' _ _; rfl
          | cons j js ihj =>
            intro pool' ha' hb'
            rw [resolveLevel_cons, resolveLevel_cons]
            rw [iha b (some j.id) pool' ha' hb']
            rw [ihj ((resolveAux b (some j.id) pool').2)
              (Nat.lt_of_le_of_lt (resolveAux_rem_sublist _ _ _).length_le ha')
              (Nat.lt_of_le_of_lt (resolveAux_rem_sublist _ _ _).length_le hb')]
        rw [hinner _ _ (by omega) (by omega)]

/-! ## Resolver lemmas: pairwise-distinct ids -/

theorem pairwise_id_unique {L : List LessonsListItem}
    (h : L.Pairwise (fun a b => a.id ≠ b.id)) :
    ∀ a ∈ L, ∀ b ∈ L, a.id = b.id → a = b := by
  induction L with
  | nil =>
    intro a ha
    exact absurd ha (List.not_mem_nil _)
  | cons c cs ih =>
    intro a ha b hb heq
    obtain ⟨hhead, htail⟩ := List.pairwise_cons.mp h
    rcases List.mem_cons.mp ha with rfl | ha' <;>
      rcases List.mem_cons.mp hb with rfl | hb'
    · rfl
    · exact absurd heq (hhead b hb')
    · exact absurd heq.symm (hhead a ha')
    · exact ih htail a ha' b hb' heq

/-! ## Claim C5 — resolver completeness -/

/-- Claim C5, counterexample: a single category that names itself as its
parent satisfies the claim's hypothesis (its `parent_id` refers to the id
of a category item in the list), yet the resolver extracts nothing — no
item at all satisfies `parent_id == None` — so the returned tree is empty
and the remaining pool is the whole input, not empty. -/
theorem resolve_module_tree_cycle_cex :
    ([exSelfParent].Pairwise (fun a b => a.id ≠ b.id)) ∧
    (∀ x ∈ [exSelfParent], parentOk [exSelfParent] x = true) ∧
    resolve_module_tree none [exSelfParent] = ([], [exSelfParent]) ∧
    (resolve_module_tree none [exSelfParent]).2 ≠ [] :=
  ⟨by decide, by decide, rfl, by decide⟩

/-- Claim C5, amended: for every flat list with pairwise-distinct ids, in
which every non-root item's `parent_id` refers to the id of a category item
in the list, and in which every item's chain of parent references reaches a
root item (`RootedAt none` — the acyclicity the original claim lacks, cf.
the self-parent counterexample), `resolve_module_tree None` returns a tree
containing every input item exactly once together with an empty remaining
pool. -/
theorem resolve_module_tree_complete (L : List LessonsListItem)
    (h1 : L.Pairwise (fun a b => a.id ≠ b.id))
    (h2 : ∀ x ∈ L, parentOk L x = true)
    (h3 : ∀ x ∈ L, RootedAt none L x) :
    (resolve_module_tree none L).2 = [] ∧
    (treeItems (resolve_module_tree none L).1).Perm L := by
  have huniq : ∀ a ∈ L, ∀ b ∈ L, a.id = b.id → a = b := pairwise_id_unique h1
  have hL : ∀ (x : LessonsListItem) (p : Nat), x ∈ L → x.parent_id = some p →
      ∀ y ∈ L, y.id = p → y.is_category = true := by
    intro x p hx hp y hy hyid
    have h2x := h2 x hx
    unfold parentOk at h2x
    rw [hp] at h2x
    simp only [List.any_eq_true, Bool.and_eq_true, beq_iff_eq] at h2x
    obtain ⟨c, hc, hcid, hccat⟩ := h2x
    have hyc : y = c := huniq y hy c hc (by rw [hyid, hcid])
    rw [hyc]
    exact hccat
  have hrem : (resolveAux (L.length + 1) none L).2 = [] := by
    rw [List.eq_nil_iff_forall_not_mem]
    intro x hx
    have hxL : x ∈ L := (resolveAux_rem_sublist (L.length + 1) none L).subset hx
    exact (resolveAux_completes (L.length + 1)).1 none L x (by omega) h1 hxL
      (h3 x hxL) hx
  refine ⟨hrem, ?_⟩
  have hcons := resolveAux_conserves L hL (L.length + 1) none L (fun z hz => hz)
  rw [hrem] at hcons
  show (treeItems (resolveAux (L.length + 1) none L).1).Perm L
  simpa using hcons

/-- Claim C5, witness for the amended theorem: a category, a lesson below
it, and a root lesson resolve to a tree holding all three items and an
empty pool. -/
theorem resolve_module_tree_complete_witness :
    (resolve_module_tree none [exCat, exSub, exRootLesson]).2 = [] ∧
    (treeItems (resolve_module_tree none [exCat, exSub, exRootLesson]).1).Perm
      [exCat, exSub, exRootLesson] :=
  resolve_module_tree_complete [exCat, exSub, exRootLesson] (by decide) (by decide)
    (by
      intro x hx
      rcases List.mem_cons.mp hx with rfl | hx1
      · exact RootedAt.base _ rfl
      rcases List.mem_cons.mp hx1 with rfl | hx2
      · exact RootedAt.step _ exCat (List.mem_cons_self _ _) rfl
          (RootedAt.base _ rfl)
      rcases List.mem_cons.mp hx2 with rfl | hx3
      · exact RootedAt.base _ rfl
      · exact absurd hx3 (List.not_mem_nil _))

/-! ## Claim C8 — resolver termination -/

/-- Claim C8: `resolve_module_tree` terminates on every finite input.  The
current level's items are partitioned out and never re-inserted, so
whenever a recursive call happens (the level is non-empty) the pool handed
down is strictly smaller; accordingly a recursion-depth budget of
`stack.length + 1` is always enough — any fuel beyond the input length
computes the same result — and the remaining pool never grows. -/
theorem resolve_module_tree_terminates (parent_id : Option Nat)
    (stack : List LessonsListItem) (fuel : Nat) (h : stack.length < fuel) :
    resolveAux fuel parent_id stack = resolve_module_tree parent_id stack ∧
    ((resolve_module_tree parent_id stack).2).Sublist stack ∧
    (∀ item ∈ levelOf parent_id stack,
      (restOf parent_id stack).length < stack.length) :=
  ⟨resolveAux_fuel_irrelevant fuel (stack.length + 1) parent_id stack h
      (by omega),
   resolveAux_rem_sublist _ _ _,
   fun _ hitem => restOf_length_lt hitem⟩

/-- Claim C8, witness at a one-item stack with fuel 2. -/
theorem resolve_module_tree_terminates_witness :
    resolveAux 2 none [exLessonParent] = resolve_module_tree none [exLessonParent] ∧
    ((resolve_module_tree none [exLessonParent]).2).Sublist [exLessonParent] ∧
    (∀ item ∈ levelOf none [exLessonParent],
      (restOf none [exLessonParent]).length < [exLessonParent].length) :=
  resolve_module_tree_terminates none [exLessonParent] 2 (by decide)

/-! ## Logging resolver lemmas: unfolding -/

theorem resolveLevelL_cons_category
    (f : Option Nat → List LessonsListItem →
      (List ModuleTreeItem × List LessonsListItem) ×
        List (LessonsListItem × List ModuleTreeItem))
    (i : LessonsListItem) (is pool : List LessonsListItem)
    (hcat : i.is_category = true) :
    resolveLevelL f (i :: is) pool =
      ((ModuleTreeItem.category i (f (some i.id) pool).1.1 ::
          (resolveLevelL f is (f (some i.id) pool).1.2).1.1,
        (resolveLevelL f is (f (some i.id) pool).1.2).1.2),
       (f (some i.id) pool).2 ++
        (resolveLevelL f is (f (some i.id) pool).1.2).2) := by
  rcases h1 : f (some i.id) pool with ⟨⟨children, remaining⟩, logs₁⟩
  rcases h2 : resolveLevelL f is remaining with ⟨⟨nodes, rem⟩, logs₃⟩
  simp [resolveLevelL, h1, h2, hcat]

theorem resolveLevelL_cons_lesson_empty
    (f : Option Nat → List LessonsListItem →
      (List ModuleTreeItem × List LessonsListItem) ×
        List (LessonsListItem × List ModuleTreeItem))
    (i : LessonsListItem) (is pool : List LessonsListItem)
    (hcat : i.is_category = false) (hemp : (f (some i.id) pool).1.1 = []) :
    resolveLevelL f (i :: is) pool =
      ((ModuleTreeItem.lesson i ::
          (resolveLevelL f is (f (some i.id) pool).1.2).1.1,
        (resolveLevelL f is (f (some i.id) pool).1.2).1.2),
       (f (some i.id) pool).2 ++
        (resolveLevelL f is (f (some i.id) pool).1.2).2) := by
  rcases h1 : f (some i.id) pool with ⟨⟨children, remaining⟩, logs₁⟩
  rw [h1] at hemp
  simp only at hemp
  rcases h2 : resolveLevelL f is remaining with ⟨⟨nodes, rem⟩, logs₃⟩
  simp [resolveLevelL, h1, h2, hcat, hemp]

theorem resolveLevelL_cons_lesson_anomaly
    (f : Option Nat → List LessonsListItem →
      (List ModuleTreeItem × List LessonsListItem) ×
        List (LessonsListItem × List ModuleTreeItem))
    (i : LessonsListItem) (is pool : List LessonsListItem)
    (hcat : i.is_category = false) (hemp : (f (some i.id) pool).1.1 ≠ []) :
    resolveLevelL f (i :: is) pool =
      ((ModuleTreeItem.lesson i ::
          (resolveLevelL f is (f (some i.id) pool).1.2).1.1,
        (resolveLevelL f is (f (some i.id) pool).1.2).1.2),
       (f (some i.id) pool).2 ++ [(i, (f (some i.id) pool).1.1)] ++
        (resolveLevelL f is (f (some i.id) pool).1.2).2) := by
  rcases h1 : f (some i.id) pool with ⟨⟨children, remaining⟩, logs₁⟩
  rw [h1] at hemp
  simp only at hemp
  have hemp' : children.isEmpty = false := List.isEmpty_eq_false.mpr hemp
  rcases h2 : resolveLevelL f is remaining with ⟨⟨nodes, rem⟩, logs₃⟩
  simp [resolveLevelL, h1, h2, hcat, hemp']

theorem resolveAuxL_succ (fuel : Nat) (parent_id : Option Nat)
    (stack : List LessonsListItem) :
    resolveAuxL (fuel + 1) parent_id stack =
      ((sortNodes (resolveLevelL (resolveAuxL fuel) (levelOf parent_id stack)
          (restOf parent_id stack)).1.1,
        (resolveLevelL (resolveAuxL fuel) (levelOf parent_id stack)
          (restOf parent_id stack)).1.2),
       (resolveLevelL (resolveAuxL fuel) (levelOf parent_id stack)
          (restOf parent_id stack)).2) := by
  have hl : List.filter (fun item => item.parent_id == parent_id) stack =
      levelOf parent_id stack := rfl
  have hr : List.filter (not ∘ fun item => item.parent_id == parent_id) stack =
      restOf parent_id stack := rfl
  rcases h2 : resolveLevelL (resolveAuxL fuel) (levelOf parent_id stack)
      (restOf parent_id stack) with ⟨⟨nodes, rem⟩, logs⟩
  simp [resolveAuxL, List.partition_eq_filter_filter, hl, hr, h2]

/-! ## Logging resolver lemmas: the tree and pool agree with the plain
resolver (so an anomalous item's collected children are dropped: its node
is the same childless `Lesson` the plain resolver produces) -/

theorem resolveLevelL_fst
    (f : Option Nat → List LessonsListItem →
      (List ModuleTreeItem × List LessonsListItem) ×
        List (LessonsListItem × List ModuleTreeItem))
    (g : Option Nat → List LessonsListItem →
      List ModuleTreeItem × List LessonsListItem)
    (hf : ∀ pid pool, (f pid pool).1 = g pid pool) :
    ∀ level pool, (resolveLevelL f level pool).1 = resolveLevel g level pool := by
  intro level
  induction level with
  | nil => intro pool; rfl
  | cons i is ih =>
    intro pool
    have hfe := hf (some i.id) pool
    rw [resolveLevel_cons]
    by_cases hcat : i.is_category
    · rw [resolveLevelL_cons_category f i is pool hcat, if_pos hcat, hfe, ih]
    · have hcat' : i.is_category = false := by
        revert hcat
        cases i.is_category <;> simp
      rw [if_neg hcat]
      by_cases hemp : (f (some i.id) pool).1.1 = []
      · rw [resolveLevelL_cons_lesson_empty f i is pool hcat' hemp, hfe, ih]
      · rw [resolveLevelL_cons_lesson_anomaly f i is pool hcat' hemp, hfe, ih]

theorem resolveAuxL_fst :
    ∀ fuel pid stack, (resolveAuxL fuel pid stack).1 = resolveAux fuel pid stack := by
  intro fuel
  induction fuel with
  | zero => intro pid stack; rfl
  | succ F ih =>
    intro pid stack
    have h := resolveLevelL_fst (resolveAuxL F) (resolveAux F) ih
      (levelOf pid stack) (restOf pid stack)
    rw [resolveAuxL_succ, resolveAux_succ]
    show (sortNodes (resolveLevelL (resolveAuxL F) (levelOf pid stack)
        (restOf pid stack)).1.1,
      (resolveLevelL (resolveAuxL F) (levelOf pid stack)
        (restOf pid stack)).1.2) = _
    rw [h]

/-! ## Logging resolver lemmas: every log entry is an anomaly -/

theorem resolveLevelL_logs_sound
    (f : Option Nat → List LessonsListItem →
      (List ModuleTreeItem × List LessonsListItem) ×
        List (LessonsListItem × List ModuleTreeItem))
    (hf : ∀ pid pool e, e ∈ (f pid pool).2 →
      e.1.is_category = false ∧ e.2 ≠ []) :
    ∀ level pool e, e ∈ (resolveLevelL f level pool).2 →
      e.1.is_category = false ∧ e.2 ≠ [] := by
  intro level
  induction level with
  | nil =>
    intro pool e he
    exact absurd he (List.not_mem_nil _)
  | cons i is ih =>
    intro pool e he
    by_cases hcat : i.is_category
    · rw [resolveLevelL_cons_category f i is pool hcat] at he
      rcases List.mem_append.mp he with h | h
      · exact hf _ _ _ h
      · exact ih _ _ h
    · have hcat' : i.is_category = false := by
        revert hcat
        cases i.is_category <;> simp
      by_cases hemp : (f (some i.id) pool).1.1 = []
      · rw [resolveLevelL_cons_lesson_empty f i is pool hcat' hemp] at he
        rcases List.mem_append.mp he with h | h
        · exact hf _ _ _ h
        · exact ih _ _ h
      · rw [resolveLevelL_cons_lesson_anomaly f i is pool hcat' hemp] at he
        rcases List.mem_append.mp he with h | h
        · rcases List.mem_append.mp h with h' | h'
          · exact hf _ _ _ h'
          · rw [List.mem_singleton] at h'
            subst h'
            exact ⟨hcat', hemp⟩
        · exact ih _ _ h

theorem resolveAuxL_logs_sound :
    ∀ fuel pid stack e, e ∈ (resolveAuxL fuel pid stack).2 →
      e.1.is_category = false ∧ e.2 ≠ [] := by
  intro fuel
  induction fuel with
  | zero =>
    intro pid stack e he
    exact absurd he (List.not_mem_nil _)
  | succ F ih =>
    intro pid stack e he
    rw [resolveAuxL_succ] at he
    exact resolveLevelL_logs_sound _ ih _ _ _ he

/-! ## Logging resolver lemmas: item accounting

Unconditionally, every input occurrence ends up in exactly one of: the
returned tree, the remaining pool, or a logged dropped-children payload. -/

theorem resolveLevelL_count
    (f : Option Nat → List LessonsListItem →
      (List ModuleTreeItem × List LessonsListItem) ×
        List (LessonsListItem × List ModuleTreeItem))
    (hfC : ∀ pid pool (a : LessonsListItem),
      List.count a (treeItems (f pid pool).1.1) +
        List.count a (f pid pool).1.2 +
        List.count a (droppedItems (f pid pool).2) = List.count a pool) :
    ∀ level pool (a : LessonsListItem),
      List.count a (treeItems (resolveLevelL f level pool).1.1) +
        List.count a (resolveLevelL f level pool).1.2 +
        List.count a (droppedItems (resolveLevelL f level pool).2) =
        List.count a (level ++ pool) := by
  intro level
  induction level with
  | nil =>
    intro pool a
    simp [resolveLevelL, treeItems, droppedItems]
  | cons i is ih =>
    intro pool a
    have h1 := hfC (some i.id) pool a
    have h2 := ih ((f (some i.id) pool).1.2) a
    by_cases hcat : i.is_category
    · rw [resolveLevelL_cons_category f i is pool hcat]
      simp only [treeItems, nodeItems, droppedItems, List.flatMap_append,
        List.count_append, List.count_cons, List.cons_append] at h1 h2 ⊢
      omega
    · have hcat' : i.is_category = false := by
        revert hcat
        cases i.is_category <;> simp
      by_cases hemp : (f (some i.id) pool).1.1 = []
      · rw [resolveLevelL_cons_lesson_empty f i is pool hcat' hemp]
        rw [hemp] at h1
        simp only [treeItems, nodeItems, droppedItems, List.flatMap_append,
          List.count_append, List.count_cons, List.count_nil,
          List.cons_append] at h1 h2 ⊢
        omega
      · rw [resolveLevelL_cons_lesson_anomaly f i is pool hcat' hemp]
        simp only [treeItems, nodeItems, droppedItems, List.flatMap_append,
          List.flatMap_cons, List.flatMap_nil, List.append_nil,
          List.count_append, List.count_cons, List.count_nil,
          List.cons_append] at h1 h2 ⊢
        omega

theorem resolveAuxL_count :
    ∀ fuel pid stack (a : LessonsListItem),
      List.count a (treeItems (resolveAuxL fuel pid stack).1.1) +
        List.count a (resolveAuxL fuel pid stack).1.2 +
        List.count a (droppedItems (resolveAuxL fuel pid stack).2) =
        List.count a stack := by
  intro fuel
  induction fuel with
  | zero =>
    intro pid stack a
    simp [resolveAuxL, treeItems, droppedItems]
  | succ F ih =>
    intro pid stack a
    have hlev := resolveLevelL_count (resolveAuxL F) ih
      (levelOf pid stack) (restOf pid stack) a
    have hsort : List.count a (treeItems (sortNodes (resolveLevelL (resolveAuxL F)
        (levelOf pid stack) (restOf pid stack)).1.1)) =
        List.count a (treeItems (resolveLevelL (resolveAuxL F)
          (levelOf pid stack) (restOf pid stack)).1.1) :=
      (treeItems_perm (sortNodes_perm _)).count_eq a
    have hperm : List.count a (levelOf pid stack ++ restOf pid stack) =
        List.count a stack :=
      (List.filter_append_perm _ stack).count_eq a
    rw [resolveAuxL_succ]
    show List.count a (treeItems (sortNodes (resolveLevelL (resolveAuxL F)
        (levelOf pid stack) (restOf pid stack)).1.1)) +
      List.count a (resolveLevelL (resolveAuxL F) (levelOf pid stack)
        (restOf pid stack)).1.2 +
      List.count a (droppedItems (resolveLevelL (resolveAuxL F)
        (levelOf pid stack) (restOf pid stack)).2) = List.count a stack
    omega

/-! ## Claim C2, amended theorem -/

/-- Claim C2, amended: for every parent reference and every input list,
whenever the resolver classifies an item with `is_category == false` as a
`Lesson` for which the recursive call collected a non-empty children list,
the anomaly is logged and the children are dropped.  Concretely:
the tree and remaining pool of the logging run coincide with
`resolve_module_tree`'s, whose `Lesson` nodes are childless by
construction, so no collected children are kept attached; every anomaly
log entry records a non-category item together with the non-empty children
it collected; and the input is a permutation of tree plus remaining pool
plus the logged dropped children — so exactly the logged children
occurrences are silently lost from the result, appearing neither in the
returned tree nor in the remaining pool. -/
theorem resolve_module_tree_lesson_children_logged_dropped
    (parent_id : Option Nat) (stack : List LessonsListItem) :
    (resolve_module_tree_logged parent_id stack).1 =
      resolve_module_tree parent_id stack ∧
    (∀ e ∈ (resolve_module_tree_logged parent_id stack).2,
      e.1.is_category = false ∧ e.2 ≠ []) ∧
    (treeItems (resolve_module_tree parent_id stack).1 ++
      (resolve_module_tree parent_id stack).2 ++
      droppedItems (resolve_module_tree_logged parent_id stack).2).Perm stack := by
  have hfst : (resolve_module_tree_logged parent_id stack).1 =
      resolve_module_tree parent_id stack :=
    resolveAuxL_fst (stack.length + 1) parent_id stack
  refine ⟨hfst, fun e he => resolveAuxL_logs_sound _ _ _ e he, ?_⟩
  rw [List.perm_iff_count]
  intro a
  rw [← hfst]
  simp only [List.count_append]
  exact resolveAuxL_count (stack.length + 1) parent_id stack a

/-- Claim C2, witness at the input `[exLessonParent, exChild]`: the log
holds exactly the anomaly entry for the non-category `exLessonParent` with
its dropped child node, and the accounting permutation is exercised. -/
theorem resolve_module_tree_lesson_children_logged_dropped_witness :
    (resolve_module_tree_logged none [exLessonParent, exChild]).2 =
      [(exLessonParent, [ModuleTreeItem.lesson exChild])] ∧
    exLessonParent.is_category = false ∧
    [ModuleTreeItem.lesson exChild] ≠ ([] : List ModuleTreeItem) ∧
    (treeItems (resolve_module_tree none [exLessonParent, exChild]).1 ++
      (resolve_module_tree none [exLessonParent, exChild]).2 ++
      droppedItems (resolve_module_tree_logged none [exLessonParent, exChild]).2).Perm
      [exLessonParent, exChild] := by
  have h := resolve_module_tree_lesson_children_logged_dropped none
    [exLessonParent, exChild]
  have hmem : (exLessonParent, [ModuleTreeItem.lesson exChild]) ∈
      (resolve_module_tree_logged none [exLessonParent, exChild]).2 :=
    List.mem_singleton.mpr rfl
  exact ⟨rfl, (h.2.1 _ hmem).1, (h.2.1 _ hmem).2, h.2.2⟩
